import Mathlib

/-!
Verification of a convolutional-code transmission simulator.

The program encodes a text message into a real-valued codeword using a
rate-1/4 convolutional encoder over a sliding window of the three most
recent bipolar symbols, transmits it over an additive-Gaussian-noise
channel, and decodes the noisy samples with a Viterbi decoder.

The definitions below embed the program: `str_to_bits`, `encode`,
`transmit` and `decode` follow `main.py`; the Viterbi decoder `viterbi`
(imported by `main.py` from a module whose source is not available) is
modelled from the design document, and the trellis model (`bitToSymbol`,
`trOut`, `trNext`, `encodeSt`) follows the design document's transition
function, to be compared against the encoder loop of `main.py`.

Real-valued samples are embedded as rationals, machine integers as
unbounded integers, and the two `ValueError`-style failure modes as
`Except String` results.
-/

/-! ## Symbol mapper and trellis model (design document §4.1, §4.2) -/

/-- Bit-to-bipolar-symbol map: bit 0 maps to −1, bit 1 maps to +1. -/
def bitToSymbol (b : Bool) : ℤ := if b then 1 else -1

/-- An encoder state: the three most recently emitted symbols, oldest
first, each symbol recorded by its sign bit (`true` for +1). -/
abbrev TState := Bool × Bool × Bool

/-- The all-(+1) initial state. -/
def initState : TState := (true, true, true)

/-- The four output symbols of one trellis transition: with state
`(a, b, c)` and input symbol `s`, the outputs are
`a·b·s, b·c·s, a·c·s, a·s`. -/
def trOut (q : TState) (b : Bool) : List ℤ :=
  [bitToSymbol q.1 * bitToSymbol q.2.1 * bitToSymbol b,
   bitToSymbol q.2.1 * bitToSymbol q.2.2 * bitToSymbol b,
   bitToSymbol q.1 * bitToSymbol q.2.2 * bitToSymbol b,
   bitToSymbol q.1 * bitToSymbol b]

/-- The next state of one trellis transition: `(a, b, c)` with input
symbol `s` advances to `(b, c, s)`. -/
def trNext (q : TState) (b : Bool) : TState := (q.2.1, q.2.2, b)

/-- Walking the trellis forward from a state, concatenating the four
outputs of every transition (design document §4.3, stated over the
trellis model). -/
def encodeSt : TState → List Bool → List ℤ
  | _, [] => []
  | q, b :: bs => trOut q b ++ encodeSt (trNext q b) bs

/-! ## The encoder of `main.py` -/

/-- One iteration of the encoding loop in `encode` (`main.py` lines
69–77): `symbol = 2*bit - 1`, the four appended outputs are
`window[0]*window[1]*symbol`, `window[1]*window[2]*symbol`,
`window[0]*window[2]*symbol`, `window[0]*symbol`, and the window is
popped at the front and the symbol appended. -/
def encStep (w : ℤ × ℤ × ℤ) (b : Bool) : List ℤ × (ℤ × ℤ × ℤ) :=
  let s : ℤ := 2 * (bif b then 1 else 0) - 1
  ([w.1 * w.2.1 * s, w.2.1 * w.2.2 * s, w.1 * w.2.2 * s, w.1 * s],
   (w.2.1, w.2.2, s))

/-- The encoding loop of `encode` in `main.py`, over an arbitrary
starting window. -/
def encWindow : ℤ × ℤ × ℤ → List Bool → List ℤ
  | _, [] => []
  | w, b :: bs => (encStep w b).1 ++ encWindow (encStep w b).2 bs

/-- The bit-level encoder of `main.py`: the encoding loop started from
the window `[1, 1, 1]`. -/
def encodeBits (bs : List Bool) : List ℤ := encWindow (1, 1, 1) bs

/-! ## Text-to-bits conversion (`str_to_bits` in `main.py`) -/

/-- Python `str.encode('ascii', errors='replace')`, per character: code
points below 128 map to themselves, anything else to `?` (byte 63).
A character is given by its code point. -/
def asciiReplace (c : Nat) : Nat := if c < 128 then c else 63

/-- `int(str_bytes.hex(), 16)`: the big-endian base-256 value of a byte
list. -/
def bytesVal (l : List Nat) : Nat := l.foldl (fun a b => 256 * a + b) 0

/-- Little-endian binary digits of a natural number, with no trailing
zeros (empty for 0). -/
def lebits : Nat → List Bool
  | 0 => []
  | n + 1 => decide ((n + 1) % 2 = 1) :: lebits ((n + 1) / 2)
decreasing_by exact Nat.div_lt_self (Nat.succ_pos _) (by omega)

/-- `bin(n).lstrip('0b')`: the minimal big-endian binary digit string of
`n` (empty for `n = 0`). -/
def natBits (n : Nat) : List Bool := (lebits n).reverse

/-- The zero-padding while-loop of `str_to_bits`: prepend `'0'` until the
length reaches `w`. -/
def padTo (w : Nat) (l : List Bool) : List Bool :=
  List.replicate (w - l.length) false ++ l

/-- `str_to_bits` from `main.py`: encode the characters as ASCII bytes
with replacement, read the bytes as one big-endian integer, take its
binary expansion and left-pad with zeros to 8 bits per character.  On
the empty string `int('', 16)` raises `ValueError`. -/
def str_to_bits (cs : List Nat) : Except String (List Bool) :=
  match cs with
  | [] => Except.error "ValueError: invalid literal for int() with base 16"
  | _ :: _ =>
    Except.ok (padTo (8 * cs.length) (natBits (bytesVal (cs.map asciiReplace))))

/-- The big-endian 8-bit binary expansion of a byte value. -/
def byte8 (n : Nat) : List Bool := padTo 8 (natBits n)

/-- Casting an integer codeword to rational-valued samples. -/
def qcast (l : List ℤ) : List ℚ := l.map fun z : ℤ => (z : ℚ)

/-- `encode` from `main.py`: convert the message to bits and run the
encoding loop; the result is real-valued (`np.float64` in the source,
embedded as `ℚ`). -/
def encode (cs : List Nat) : Except String (List ℚ) :=
  match str_to_bits cs with
  | Except.error e => Except.error e
  | Except.ok bits => Except.ok (qcast (encodeBits bits))

/-! ## The channel (`transmit` in `main.py`) -/

/-- The default noise variance (`VARIANCE` in `main.py`). -/
def VARIANCE : ℚ := 1

/-- The effective variance after `var = var or VARIANCE` in `transmit`:
Python's `or` takes the fallback when `var` is `None` and also when it
is the (falsy) number 0. -/
def effVar (var : Option ℚ) : ℚ :=
  match var with
  | none => VARIANCE
  | some v => if v = 0 then VARIANCE else v

/-- `transmit` from `main.py`, with the drawn noise vector made an
explicit argument: the returned signal is the elementwise sum
`signal + noise`. -/
def transmit (signal noise : List ℚ) : List ℚ := List.zipWith (· + ·) signal noise

/-! ## The Viterbi decoder

`main.py` imports `viterbi` from a module `graph` whose source is not
available; the decoder below is modelled from the design document §4.4:
a forward dynamic-programming pass over the 8 trellis states keeping,
per state, the minimum accumulated squared distance together with the
survivor path that attains it, then selection of the best terminal
state.  Back-pointer plus traceback is rendered functionally by storing
the survivor path with each table entry. -/

/-- Squared Euclidean distance between two sample lists (summed over the
common length). -/
def sqDist (xs ys : List ℚ) : ℚ :=
  (List.zipWith (fun a b => (a - b) ^ 2) xs ys).sum

/-- Branch metric: squared distance between the four expected transition
outputs and one 4-sample chunk. -/
def branchCost (q : TState) (b : Bool) (chunk : List ℚ) : ℚ :=
  sqDist (qcast (trOut q b)) chunk

/-- Accumulated squared distance of a bit path against a chunked sample
sequence, walking the trellis from state `q`. -/
def pathCost : TState → List Bool → List (List ℚ) → ℚ
  | _, [], _ => 0
  | _, _ :: _, [] => 0
  | q, b :: bs, c :: cs => branchCost q b c + pathCost (trNext q b) bs cs

/-- The state reached after consuming a bit path from state `q`. -/
def endState (q : TState) (bs : List Bool) : TState := bs.foldl trNext q

/-- A survivor entry: accumulated metric and the path attaining it. -/
abbrev VEntry := ℚ × List Bool

/-- The path-metric table at one time step: per state, the best survivor
entry, or `none` for an unreachable state (metric +∞). -/
abbrev VTbl := TState → Option VEntry

/-- The 8 trellis states, in a fixed enumeration order. -/
def allStates : List TState :=
  [(false, false, false), (false, false, true), (false, true, false),
   (false, true, true), (true, false, false), (true, false, true),
   (true, true, false), (true, true, true)]

/-- All candidate entries proposed at state `q` for one time step: one
per predecessor state with finite metric and input bit whose transition
reaches `q`. -/
def proposals (tbl : VTbl) (chunk : List ℚ) (q : TState) : List VEntry :=
  allStates.flatMap fun p =>
    [false, true].filterMap fun b =>
      if trNext p b = q then
        (tbl p).map fun e => (e.1 + branchCost p b chunk, e.2 ++ [b])
      else none

/-- One comparison step of the minimum-metric scan. -/
def minStep (acc : Option VEntry) (e : VEntry) : Option VEntry :=
  match acc with
  | none => some e
  | some e' => if e.1 < e'.1 then some e else some e'

/-- Keep the candidate with minimum metric (first in iteration order on
exact ties, so repeated runs are reproducible). -/
def pickMin (l : List VEntry) : Option VEntry := l.foldl minStep none

/-- One forward-pass step of the dynamic program. -/
def stepTbl (tbl : VTbl) (chunk : List ℚ) : VTbl :=
  fun q => pickMin (proposals tbl chunk q)

/-- The time-0 table: metric 0 at the initial state, +∞ elsewhere. -/
def initTbl : VTbl :=
  fun q => if q = initState then some (0, []) else none

/-- The full forward pass over the chunked sample sequence. -/
def runDP : VTbl → List (List ℚ) → VTbl
  | tbl, [] => tbl
  | tbl, c :: cs => runDP (stepTbl tbl c) cs

/-- Termination: the globally minimum-metric entry over all terminal
states. -/
def finalPick (tbl : VTbl) : Option VEntry :=
  pickMin (allStates.filterMap tbl)

/-- Split a sample sequence into consecutive chunks of 4. -/
def chunks4 : List ℚ → List (List ℚ)
  | a :: b :: c :: d :: rest => [a, b, c, d] :: chunks4 rest
  | _ => []

/-- The decoder's length-contract error message. -/
def lengthErrMsg : String :=
  "decode: sample sequence length must be a positive multiple of 4"

/-- Modelled from the spec: the Viterbi decoder (`viterbi` in the
`graph` module, whose source is not available).  Design document §4.4:
the sample length must be a positive multiple of 4 (fail fast
otherwise); the forward pass fills the path-metric table left to right,
and the best terminal state's survivor path is the decoded bit
sequence. -/
def viterbi (samples : List ℚ) : Except String (List Bool) :=
  if samples.length % 4 = 0 ∧ 0 < samples.length then
    Except.ok (((finalPick (runDP initTbl (chunks4 samples))).getD (0, [])).2)
  else Except.error lengthErrMsg

/-! ## Bits-to-text conversion and `decode` (`main.py`) -/

/-- `int(message_bin, 2)`: the big-endian value of a bit string. -/
def beVal (l : List Bool) : Nat :=
  l.foldl (fun a b => 2 * a + (bif b then 1 else 0)) 0

/-- Little-endian base-16 digits of a natural number, with no trailing
zeros (empty for 0). -/
def led16 : Nat → List Nat
  | 0 => []
  | n + 1 => ((n + 1) % 16) :: led16 ((n + 1) / 16)
decreasing_by exact Nat.div_lt_self (Nat.succ_pos _) (by omega)

/-- `hex(n).lstrip('0x')`: the minimal big-endian hexadecimal digit
string of `n` (empty for `n = 0`). -/
def hexDigits (n : Nat) : List Nat := (led16 n).reverse

/-- `bytearray.fromhex`: consecutive pairs of hexadecimal digits as
bytes. -/
def pairBytes : List Nat → List Nat
  | h :: l :: rest => (16 * h + l) :: pairBytes rest
  | _ => []

/-- Lines 117–120 of `main.py`: the decoded bit string is read as an
integer, printed as hexadecimal, zero-padded on the left to an even
number of hex digits, and converted to bytes. -/
def bitsToBytes (bits : List Bool) : List Nat :=
  pairBytes (if (hexDigits (beVal bits)).length % 2 = 1 then
    0 :: hexDigits (beVal bits)
  else hexDigits (beVal bits))

/-- Python `bytes.decode('ascii', errors='replace')`, per byte: bytes
below 128 map to their code point, anything else to the replacement
character U+FFFD. -/
def byteToChar (b : Nat) : Nat := if b < 128 then b else 65533

/-- The bit-to-text conversion inside `decode`. -/
def bitsToMsg (bits : List Bool) : List Nat :=
  (bitsToBytes bits).map byteToChar

/-- `decode` from `main.py`: run the Viterbi decoder, then convert the
decoded bit string back to text. -/
def decode (samples : List ℚ) : Except String (List Nat) :=
  match viterbi samples with
  | Except.error e => Except.error e
  | Except.ok bits => Except.ok (bitsToMsg bits)

/-! ## The forward-pass invariant of the dynamic program -/

/-- The invariant of the Viterbi forward pass after consuming the chunks
`seen`: every table entry is the exact accumulated cost of its recorded
path, of the right length and ending in its state; and for every bit
path of the right length, the entry at its end state is at most its
cost. -/
def DPInv (tbl : VTbl) (seen : List (List ℚ)) : Prop :=
  (∀ q m path, tbl q = some (m, path) →
      path.length = seen.length ∧ endState initState path = q ∧
      pathCost initState path seen = m) ∧
  (∀ bs : List Bool, bs.length = seen.length →
      ∃ m path, tbl (endState initState bs) = some (m, path) ∧
        m ≤ pathCost initState bs seen)

/-! ## Encoder lemmas -/

/-- Unfolding of the encoding loop on a cons. -/
theorem encWindow_cons (w : ℤ × ℤ × ℤ) (b : Bool) (bs : List Bool) :
    encWindow w (b :: bs) = (encStep w b).1 ++ encWindow (encStep w b).2 bs := rfl

/-- The loop body computes the trellis outputs and next state: the
inline symbol `2*bit - 1` agrees with `bitToSymbol`. -/
theorem encStep_sym (x y z : ℤ) (b : Bool) :
    encStep (x, y, z) b =
      ([x * y * bitToSymbol b, y * z * bitToSymbol b, x * z * bitToSymbol b,
        x * bitToSymbol b], (y, z, bitToSymbol b)) := by
  cases b <;> rfl

/-- The encoding loop of `main.py`, started from the symbol image of any
trellis state, agrees with the trellis walk. -/
theorem encWindow_eq_encodeSt (bs : List Bool) : ∀ q : TState,
    encWindow (bitToSymbol q.1, bitToSymbol q.2.1, bitToSymbol q.2.2) bs = encodeSt q bs := by
  induction bs with
  | nil => intro q; rfl
  | cons b bs ih =>
    intro q
    obtain ⟨x, y, z⟩ := q
    rw [encWindow_cons, encStep_sym]
    show _ ++ encWindow (bitToSymbol y, bitToSymbol z, bitToSymbol b) bs = _
    rw [ih (y, z, b)]
    rfl

/-- The encoder of `main.py` is the trellis walk from the all-(+1)
initial state. -/
theorem encodeBits_eq (bs : List Bool) : encodeBits bs = encodeSt initState bs := by
  have h := encWindow_eq_encodeSt bs initState
  simpa [encodeBits, initState, bitToSymbol] using h

/-- Each input bit contributes exactly four codeword samples. -/
theorem encodeSt_length (bs : List Bool) : ∀ q, (encodeSt q bs).length = 4 * bs.length := by
  induction bs with
  | nil => intro q; rfl
  | cons b bs ih =>
    intro q
    simp [encodeSt, trOut, ih (trNext q b)]
    ring

/-- Distinct input bits produce distinct transition outputs from any
state. -/
theorem trOut_inj : ∀ (q : TState) (b c : Bool), trOut q b = trOut q c → b = c := by
  decide

/-- The trellis walk is injective on bit sequences of equal length. -/
theorem encodeSt_inj : ∀ (bs cs : List Bool) (q : TState), bs.length = cs.length →
    encodeSt q bs = encodeSt q cs → bs = cs := by
  intro bs
  induction bs with
  | nil =>
    intro cs q hl _
    exact (List.eq_nil_of_length_eq_zero hl.symm).symm
  | cons b bs ih =>
    intro cs q hl he
    cases cs with
    | nil => simp at hl
    | cons c cs' =>
      simp only [encodeSt] at he
      have h4 : (trOut q b).length = (trOut q c).length := by simp [trOut]
      obtain ⟨h1, h2⟩ := List.append_inj he h4
      have hbc := trOut_inj q b c h1
      subst hbc
      rw [ih cs' (trNext q b) (by simpa using hl) h2]

/-- Casting to rationals is injective. -/
theorem qcast_inj : ∀ (xs ys : List ℤ), qcast xs = qcast ys → xs = ys := by
  intro xs
  induction xs with
  | nil =>
    intro ys h
    cases ys with
    | nil => rfl
    | cons b u => simp [qcast] at h
  | cons a t ih =>
    intro ys h
    cases ys with
    | nil => simp [qcast] at h
    | cons b u =>
      simp only [qcast, List.map_cons, List.cons.injEq] at h
      obtain ⟨h1, h2⟩ := h
      have hab : a = b := by exact_mod_cast h1
      rw [hab, ih u h2]

/-! ## Distance lemmas -/

theorem sqDist_cons (a b : ℚ) (xs ys : List ℚ) :
    sqDist (a :: xs) (b :: ys) = (a - b) ^ 2 + sqDist xs ys := by
  simp [sqDist]

theorem sqDist_append (xs ys as bs : List ℚ) (h : xs.length = as.length) :
    sqDist (xs ++ ys) (as ++ bs) = sqDist xs as + sqDist ys bs := by
  unfold sqDist
  rw [List.zipWith_append _ _ _ _ _ h, List.sum_append]

theorem sqDist_nonneg (xs : List ℚ) : ∀ ys, 0 ≤ sqDist xs ys := by
  induction xs with
  | nil => intro ys; simp [sqDist]
  | cons a xs ih =>
    intro ys
    cases ys with
    | nil => simp [sqDist]
    | cons b ys =>
      rw [sqDist_cons]
      have := ih ys
      have := sq_nonneg (a - b)
      linarith

theorem sqDist_self (xs : List ℚ) : sqDist xs xs = 0 := by
  induction xs with
  | nil => rfl
  | cons a xs ih => rw [sqDist_cons, ih]; ring

theorem sqDist_eq_zero (xs : List ℚ) : ∀ ys, xs.length = ys.length →
    sqDist xs ys = 0 → xs = ys := by
  induction xs with
  | nil =>
    intro ys hl _
    exact (List.eq_nil_of_length_eq_zero hl.symm).symm
  | cons a xs ih =>
    intro ys hl hz
    cases ys with
    | nil => simp at hl
    | cons b ys =>
      rw [sqDist_cons] at hz
      have h1 := sqDist_nonneg xs ys
      have h2 := sq_nonneg (a - b)
      have hsq : (a - b) ^ 2 = 0 := by linarith
      have hab : a = b := by
        have := pow_eq_zero_iff (n := 2) (by norm_num) |>.mp hsq
        linarith [sub_eq_zero.mp this]
      have hrest : sqDist xs ys = 0 := by linarith
      rw [hab, ih ys (by simpa using hl) hrest]

/-! ## Path-cost lemmas -/

theorem pathCost_nil (q : TState) (cs : List (List ℚ)) : pathCost q [] cs = 0 := by
  cases cs <;> rfl

theorem pathCost_cons (q : TState) (b : Bool) (bs : List Bool) (c : List ℚ)
    (cs : List (List ℚ)) :
    pathCost q (b :: bs) (c :: cs) = branchCost q b c + pathCost (trNext q b) bs cs := rfl

theorem endState_nil (q : TState) : endState q [] = q := rfl

theorem endState_cons (q : TState) (b : Bool) (bs : List Bool) :
    endState q (b :: bs) = endState (trNext q b) bs := rfl

theorem endState_append (q : TState) (bs : List Bool) (b : Bool) :
    endState q (bs ++ [b]) = trNext (endState q bs) b := by
  simp [endState, List.foldl_append]

theorem pathCost_snoc (bs : List Bool) : ∀ (cs : List (List ℚ)) (q : TState)
    (b : Bool) (c : List ℚ), bs.length = cs.length →
    pathCost q (bs ++ [b]) (cs ++ [c]) =
      pathCost q bs cs + branchCost (endState q bs) b c := by
  induction bs with
  | nil =>
    intro cs q b c h
    have : cs = [] := List.eq_nil_of_length_eq_zero h.symm
    subst this
    simp [pathCost_cons, pathCost_nil, endState_nil]
  | cons b0 bs ih =>
    intro cs q b c h
    cases cs with
    | nil => simp at h
    | cons c0 cs' =>
      simp only [List.cons_append, pathCost_cons, endState_cons]
      rw [ih cs' (trNext q b0) b c (by simpa using h)]
      ring

/-! ## Minimum-scan lemmas -/

theorem minStep_some (a x : VEntry) :
    minStep (some a) x = if x.1 < a.1 then some x else some a := rfl

/-- The scan started from a current best returns an element that is the
current best or one of the list, bounded by all of them. -/
theorem pickMin_go (l : List VEntry) : ∀ a : VEntry,
    ∃ e, l.foldl minStep (some a) = some e ∧ (e = a ∨ e ∈ l) ∧ e.1 ≤ a.1 ∧
      ∀ e' ∈ l, e.1 ≤ e'.1 := by
  induction l with
  | nil =>
    intro a
    exact ⟨a, rfl, Or.inl rfl, le_refl _, by simp⟩
  | cons x xs ih =>
    intro a
    simp only [List.foldl_cons, minStep_some]
    by_cases hx : x.1 < a.1
    · rw [if_pos hx]
      obtain ⟨e, h1, h2, h3, h4⟩ := ih x
      refine ⟨e, h1, Or.inr ?_, le_trans h3 (le_of_lt hx), ?_⟩
      · rcases h2 with rfl | hm
        · exact List.mem_cons_self _ _
        · exact List.mem_cons_of_mem _ hm
      · intro e' he'
        rcases List.mem_cons.mp he' with rfl | hm
        · exact h3
        · exact h4 _ hm
    · rw [if_neg hx]
      obtain ⟨e, h1, h2, h3, h4⟩ := ih a
      refine ⟨e, h1, h2.imp id (List.mem_cons_of_mem _), h3, ?_⟩
      intro e' he'
      rcases List.mem_cons.mp he' with rfl | hm
      · exact le_trans h3 (not_lt.mp hx)
      · exact h4 _ hm

/-- On a non-empty candidate list the scan returns a minimizer. -/
theorem pickMin_spec (l : List VEntry) (hl : l ≠ []) :
    ∃ e, pickMin l = some e ∧ e ∈ l ∧ ∀ e' ∈ l, e.1 ≤ e'.1 := by
  cases l with
  | nil => exact absurd rfl hl
  | cons x xs =>
    obtain ⟨e, h1, h2, h3, h4⟩ := pickMin_go xs x
    refine ⟨e, h1, ?_, ?_⟩
    · rcases h2 with rfl | hm
      · exact List.mem_cons_self _ _
      · exact List.mem_cons_of_mem _ hm
    · intro e' he'
      rcases List.mem_cons.mp he' with rfl | hm
      · exact h3
      · exact h4 _ hm

theorem pickMin_eq_some (l : List VEntry) (e : VEntry) (h : pickMin l = some e) :
    e ∈ l ∧ ∀ e' ∈ l, e.1 ≤ e'.1 := by
  cases l with
  | nil => simp [pickMin] at h
  | cons x xs =>
    obtain ⟨e', h1, h2, h3⟩ := pickMin_spec (x :: xs) (by simp)
    rw [h1] at h
    injection h with h
    subst h
    exact ⟨h2, h3⟩

/-! ## Proposal-list lemmas -/

theorem mem_allStates (q : TState) : q ∈ allStates := by
  obtain ⟨x, y, z⟩ := q
  cases x <;> cases y <;> cases z <;> simp [allStates]

theorem proposals_sound (tbl : VTbl) (chunk : List ℚ) (q : TState) (e : VEntry)
    (h : e ∈ proposals tbl chunk q) :
    ∃ p b m path, tbl p = some (m, path) ∧ trNext p b = q ∧
      e = (m + branchCost p b chunk, path ++ [b]) := by
  unfold proposals at h
  rw [List.mem_flatMap] at h
  obtain ⟨p, _, hmem⟩ := h
  rw [List.mem_filterMap] at hmem
  obtain ⟨b, _, hfb⟩ := hmem
  by_cases hq : trNext p b = q
  · rw [if_pos hq, Option.map_eq_some'] at hfb
    obtain ⟨⟨m, path⟩, hma, hfe⟩ := hfb
    exact ⟨p, b, m, path, hma, hq, hfe.symm⟩
  · rw [if_neg hq] at hfb
    exact absurd hfb (by simp)

theorem proposals_complete (tbl : VTbl) (chunk : List ℚ) (p : TState) (b : Bool)
    (m : ℚ) (path : List Bool) (q : TState)
    (hp : tbl p = some (m, path)) (hq : trNext p b = q) :
    (m + branchCost p b chunk, path ++ [b]) ∈ proposals tbl chunk q := by
  unfold proposals
  rw [List.mem_flatMap]
  refine ⟨p, mem_allStates p, ?_⟩
  rw [List.mem_filterMap]
  refine ⟨b, by cases b <;> simp, ?_⟩
  rw [if_pos hq, hp]
  rfl

/-! ## The forward pass preserves the invariant -/

theorem initTbl_inv : DPInv initTbl [] := by
  constructor
  · intro q m path h
    unfold initTbl at h
    split_ifs at h with hq
    · have h' : (0 : ℚ) = m ∧ ([] : List Bool) = path := by
        simpa [Prod.ext_iff] using h
      obtain ⟨rfl, rfl⟩ := h'
      exact ⟨rfl, hq ▸ rfl, rfl⟩
  · intro bs hbs
    have hb : bs = [] := List.eq_nil_of_length_eq_zero (by simpa using hbs)
    subst hb
    exact ⟨0, [], by simp [initTbl, endState_nil], le_refl 0⟩

theorem stepTbl_inv (tbl : VTbl) (seen : List (List ℚ)) (chunk : List ℚ)
    (h : DPInv tbl seen) : DPInv (stepTbl tbl chunk) (seen ++ [chunk]) := by
  obtain ⟨h1, h2⟩ := h
  constructor
  · intro q m path hq
    unfold stepTbl at hq
    obtain ⟨hmem, _⟩ := pickMin_eq_some _ _ hq
    obtain ⟨p, b, m', path', hp, hnext, he⟩ := proposals_sound _ _ _ _ hmem
    obtain ⟨hlen, hend, hcost⟩ := h1 p m' path' hp
    have he' : m = m' + branchCost p b chunk ∧ path = path' ++ [b] := by
      simpa [Prod.ext_iff] using he
    obtain ⟨rfl, rfl⟩ := he'
    refine ⟨by simp [hlen], ?_, ?_⟩
    · rw [endState_append, hend, hnext]
    · rw [pathCost_snoc path' seen initState b chunk hlen, hcost, hend]
  · intro bs hbs
    have hne : bs ≠ [] := by
      intro h0
      subst h0
      simp at hbs
    obtain ⟨bs', b, hcat⟩ := (List.eq_nil_or_concat bs).resolve_left hne
    rw [List.concat_eq_append] at hcat
    subst hcat
    have hbs' : bs'.length = seen.length := by
      simp only [List.length_append, List.length_cons, List.length_nil] at hbs
      simpa using hbs
    obtain ⟨m', path', hp, hle⟩ := h2 bs' hbs'
    have hq : trNext (endState initState bs') b = endState initState (bs' ++ [b]) :=
      (endState_append _ _ _).symm
    have hmem := proposals_complete tbl chunk (endState initState bs') b m' path' _ hp hq
    have hne2 : proposals tbl chunk (endState initState (bs' ++ [b])) ≠ [] :=
      List.ne_nil_of_mem hmem
    obtain ⟨⟨m, path⟩, hpk, _, hmin⟩ := pickMin_spec _ hne2
    refine ⟨m, path, hpk, ?_⟩
    have hb1 : m ≤ m' + branchCost (endState initState bs') b chunk := hmin _ hmem
    rw [pathCost_snoc bs' seen initState b chunk hbs']
    have hb2 : m' + branchCost (endState initState bs') b chunk ≤
        pathCost initState bs' seen + branchCost (endState initState bs') b chunk := by
      linarith
    linarith

theorem runDP_inv : ∀ (chunks : List (List ℚ)) (tbl : VTbl) (seen : List (List ℚ)),
    DPInv tbl seen → DPInv (runDP tbl chunks) (seen ++ chunks) := by
  intro chunks
  induction chunks with
  | nil =>
    intro tbl seen h
    simpa using h
  | cons c cs ih =>
    intro tbl seen h
    have hstep := ih (stepTbl tbl c) (seen ++ [c]) (stepTbl_inv tbl seen c h)
    have harr : (seen ++ [c]) ++ cs = seen ++ (c :: cs) := by simp
    rw [harr] at hstep
    exact hstep

/-- The forward pass plus terminal selection returns a path of the right
length whose exact cost is minimal among all equal-length bit paths. -/
theorem viterbiRun_spec (chunks : List (List ℚ)) :
    ∃ m path, finalPick (runDP initTbl chunks) = some (m, path) ∧
      path.length = chunks.length ∧ pathCost initState path chunks = m ∧
      ∀ bs : List Bool, bs.length = chunks.length → m ≤ pathCost initState bs chunks := by
  have hinv : DPInv (runDP initTbl chunks) chunks := by
    simpa using runDP_inv chunks initTbl [] initTbl_inv
  obtain ⟨h1, h2⟩ := hinv
  obtain ⟨m0, p0, hp0, _⟩ := h2 (List.replicate chunks.length false) (by simp)
  have hmem0 : (m0, p0) ∈ allStates.filterMap (runDP initTbl chunks) :=
    List.mem_filterMap.mpr ⟨_, mem_allStates _, hp0⟩
  have hne : allStates.filterMap (runDP initTbl chunks) ≠ [] :=
    List.ne_nil_of_mem hmem0
  obtain ⟨⟨m, path⟩, hpk, hmem, hmin⟩ := pickMin_spec _ hne
  obtain ⟨q, _, htbl⟩ := List.mem_filterMap.mp hmem
  obtain ⟨hlen, _, hcost⟩ := h1 q m path htbl
  refine ⟨m, path, hpk, hlen, hcost, ?_⟩
  intro bs hbs
  obtain ⟨m', path', hp', hle'⟩ := h2 bs hbs
  have hmem' : (m', path') ∈ allStates.filterMap (runDP initTbl chunks) :=
    List.mem_filterMap.mpr ⟨_, mem_allStates _, hp'⟩
  exact le_trans (hmin _ hmem') hle'

/-! ## Chunking the sample sequence -/

theorem chunks4_spec : ∀ (n : Nat) (samples : List ℚ), samples.length = 4 * n →
    (chunks4 samples).length = n ∧ (∀ c ∈ chunks4 samples, c.length = 4) ∧
      (chunks4 samples).flatten = samples := by
  intro n
  induction n with
  | zero =>
    intro samples h
    have hs : samples = [] := List.eq_nil_of_length_eq_zero (by omega)
    subst hs
    exact ⟨rfl, by simp [chunks4], rfl⟩
  | succ k ih =>
    intro samples h
    rcases samples with _ | ⟨a, _ | ⟨b, _ | ⟨c, _ | ⟨d, rest⟩⟩⟩⟩ <;>
      simp only [List.length_nil, List.length_cons] at h
    · omega
    · omega
    · omega
    · omega
    · have hrest : rest.length = 4 * k := by omega
      obtain ⟨ih1, ih2, ih3⟩ := ih rest hrest
      refine ⟨?_, ?_, ?_⟩
      · simp [chunks4, ih1]
      · intro ch hch
        simp only [chunks4, List.mem_cons] at hch
        rcases hch with rfl | hch
        · rfl
        · exact ih2 ch hch
      · simp [chunks4, ih3]

/-- The flat squared distance of a re-encoded bit path against a sample
sequence equals its chunked path cost. -/
theorem cost_eq : ∀ (bs : List Bool) (q : TState) (chunks : List (List ℚ)),
    (∀ c ∈ chunks, c.length = 4) → bs.length = chunks.length →
    sqDist (qcast (encodeSt q bs)) chunks.flatten = pathCost q bs chunks := by
  intro bs
  induction bs with
  | nil =>
    intro q chunks _ hl
    have hc : chunks = [] := List.eq_nil_of_length_eq_zero (by simpa using hl.symm)
    subst hc
    simp [encodeSt, sqDist, qcast, pathCost_nil]
  | cons b bs ih =>
    intro q chunks hc hl
    cases chunks with
    | nil => simp at hl
    | cons c cs =>
      have hc4 : c.length = 4 := hc c (by simp)
      simp only [encodeSt, List.flatten_cons, pathCost_cons, qcast, List.map_append]
      rw [sqDist_append _ _ _ _ (by simp [trOut, hc4])]
      have ihr := ih (trNext q b) cs (fun c' hc' => hc c' (by simp [hc'])) (by simpa using hl)
      simp only [qcast] at ihr
      rw [ihr]
      rfl

/-! ## Theorems for the decoder claims -/

/-- The decoded length law used to drive `viterbi` on exact codewords. -/
theorem encodeBits_length (bs : List Bool) : (encodeBits bs).length = 4 * bs.length := by
  rw [encodeBits_eq]
  exact encodeSt_length bs initState

theorem qcast_length (l : List ℤ) : (qcast l).length = l.length := by
  simp [qcast]

/-- C2: for every sample sequence whose length is a positive multiple of
4, the decoder succeeds and returns a bit sequence of the corresponding
length whose re-encoding minimizes the total squared Euclidean distance
to the samples among all candidate bit sequences of that length (the
brute-force minimum over all 2^n candidates). -/
theorem c2_viterbi_optimal (samples : List ℚ) (n : Nat)
    (h4 : samples.length = 4 * n) (hn : 0 < n) :
    ∃ bs : List Bool, viterbi samples = Except.ok bs ∧ bs.length = n ∧
      ∀ cs : List Bool, cs.length = n →
        sqDist (qcast (encodeBits bs)) samples ≤ sqDist (qcast (encodeBits cs)) samples := by
  obtain ⟨hlen, hall, hjoin⟩ := chunks4_spec n samples h4
  obtain ⟨m, path, hpk, hplen, hpcost, hmin⟩ := viterbiRun_spec (chunks4 samples)
  refine ⟨path, ?_, by omega, ?_⟩
  · unfold viterbi
    rw [if_pos ⟨by omega, by omega⟩, hpk]
    rfl
  · intro cs hcs
    have e1 : sqDist (qcast (encodeBits path)) samples =
        pathCost initState path (chunks4 samples) := by
      have h' := cost_eq path initState (chunks4 samples) hall (by omega)
      rw [hjoin] at h'
      rw [encodeBits_eq]
      exact h'
    have e2 : sqDist (qcast (encodeBits cs)) samples =
        pathCost initState cs (chunks4 samples) := by
      have h' := cost_eq cs initState (chunks4 samples) hall (by omega)
      rw [hjoin] at h'
      rw [encodeBits_eq]
      exact h'
    rw [e1, e2, hpcost]
    exact hmin cs (by omega)

/-- C2 witness at a concrete 4-sample input. -/
theorem c2_viterbi_optimal_witness :
    (([1, 1, 1, 1] : List ℚ).length = 4 * 1 ∧ 0 < 1) ∧
    (∃ bs : List Bool, viterbi [1, 1, 1, 1] = Except.ok bs ∧ bs.length = 1 ∧
      ∀ cs : List Bool, cs.length = 1 →
        sqDist (qcast (encodeBits bs)) [1, 1, 1, 1] ≤
          sqDist (qcast (encodeBits cs)) [1, 1, 1, 1]) :=
  ⟨⟨rfl, by decide⟩, c2_viterbi_optimal [1, 1, 1, 1] 1 rfl (by decide)⟩

/-- C1 (counterexample at the empty bit sequence): the decoder rejects
the empty codeword of the empty bit sequence with the length-contract
error, so the round trip is not the identity there. -/
theorem c1_empty_cex :
    viterbi (qcast (encodeBits ([] : List Bool))) = Except.error lengthErrMsg := rfl

/-- C1 (amended): for every non-empty bit sequence, decoding the exact
codeword produced by the encoder returns the original bits. -/
theorem c1_roundtrip (bs : List Bool) (h : bs ≠ []) :
    viterbi (qcast (encodeBits bs)) = Except.ok bs := by
  have hn : 0 < bs.length := List.length_pos.mpr h
  have hslen : (qcast (encodeBits bs)).length = 4 * bs.length := by
    rw [qcast_length, encodeBits_length]
  obtain ⟨hlen, hall, hjoin⟩ := chunks4_spec bs.length (qcast (encodeBits bs)) hslen
  obtain ⟨m, path, hpk, hplen, hpcost, hmin⟩ :=
    viterbiRun_spec (chunks4 (qcast (encodeBits bs)))
  have hok : viterbi (qcast (encodeBits bs)) = Except.ok path := by
    unfold viterbi
    rw [if_pos ⟨by omega, by omega⟩, hpk]
    rfl
  have hcost_bs : pathCost initState bs (chunks4 (qcast (encodeBits bs))) = 0 := by
    have h' := cost_eq bs initState (chunks4 (qcast (encodeBits bs))) hall (by omega)
    rw [hjoin] at h'
    rw [← h', encodeBits_eq]
    exact sqDist_self _
  have hm_le : m ≤ 0 := hcost_bs ▸ hmin bs (by omega)
  have hm_ge : 0 ≤ m := by
    have h' := cost_eq path initState (chunks4 (qcast (encodeBits bs))) hall (by omega)
    rw [hjoin] at h'
    rw [← hpcost, ← h']
    exact sqDist_nonneg _ _
  have hzero : sqDist (qcast (encodeSt initState path)) (qcast (encodeBits bs)) = 0 := by
    have h' := cost_eq path initState (chunks4 (qcast (encodeBits bs))) hall (by omega)
    rw [hjoin] at h'
    rw [h', hpcost]
    exact le_antisymm hm_le hm_ge
  have hlen2 : (qcast (encodeSt initState path)).length = (qcast (encodeBits bs)).length := by
    rw [qcast_length, qcast_length, encodeSt_length, encodeBits_length]
    omega
  have heq := sqDist_eq_zero _ _ hlen2 hzero
  have heq2 : encodeSt initState path = encodeSt initState bs := by
    apply qcast_inj
    rw [heq, encodeBits_eq]
  have hpb : path = bs := encodeSt_inj path bs initState (by omega) heq2
  rw [hok, hpb]

/-- C1 witness at a concrete one-bit message. -/
theorem c1_roundtrip_witness :
    ([true] ≠ ([] : List Bool)) ∧
      viterbi (qcast (encodeBits [true])) = Except.ok [true] :=
  ⟨by decide, c1_roundtrip [true] (by decide)⟩

/-- C6: a sample sequence whose length is not a positive multiple of 4
is rejected fast with the designated length-contract error. -/
theorem c6_length_contract (samples : List ℚ)
    (h : samples.length % 4 ≠ 0 ∨ samples.length = 0) :
    decode samples = Except.error lengthErrMsg := by
  have hv : viterbi samples = Except.error lengthErrMsg := by
    unfold viterbi
    rw [if_neg]
    rintro ⟨hc1, hc2⟩
    rcases h with h | h
    · exact h hc1
    · omega
  unfold decode
  rw [hv]

/-- C6 witness at a length-3 sample sequence. -/
theorem c6_length_contract_witness :
    (([1, 2, 3] : List ℚ).length % 4 ≠ 0 ∨ ([1, 2, 3] : List ℚ).length = 0) ∧
      decode [1, 2, 3] = Except.error lengthErrMsg :=
  ⟨Or.inl (by decide), c6_length_contract [1, 2, 3] (Or.inl (by decide))⟩

/-- C4: the encoder of `main.py` starts from the all-(+1) state and is
exactly the trellis walk appending, per input bit with symbol
`s = 2*bit - 1` and state `(a, b, c)`, the outputs
`a*b*s, b*c*s, a*c*s, a*s` and advancing to `(b, c, s)`. -/
theorem c4_encoder_follows_trellis :
    (∀ bs : List Bool, encodeBits bs = encodeSt initState bs) ∧
      (bitToSymbol initState.1, bitToSymbol initState.2.1, bitToSymbol initState.2.2) =
        ((1 : ℤ), (1 : ℤ), (1 : ℤ)) :=
  ⟨encodeBits_eq, rfl⟩

/-- C5: from any window of ±1 symbols and either input bit, the four
emitted outputs are each ±1 and the next window is again a triple of ±1
symbols. -/
theorem c5_transition_total (w : ℤ × ℤ × ℤ) (b : Bool)
    (h : (w.1 = 1 ∨ w.1 = -1) ∧ (w.2.1 = 1 ∨ w.2.1 = -1) ∧ (w.2.2 = 1 ∨ w.2.2 = -1)) :
    (∀ x ∈ (encStep w b).1, x = 1 ∨ x = -1) ∧
      ((encStep w b).2.1 = 1 ∨ (encStep w b).2.1 = -1) ∧
      ((encStep w b).2.2.1 = 1 ∨ (encStep w b).2.2.1 = -1) ∧
      ((encStep w b).2.2.2 = 1 ∨ (encStep w b).2.2.2 = -1) := by
  obtain ⟨x, y, z⟩ := w
  obtain ⟨h1, h2, h3⟩ := h
  rcases h1 with rfl | rfl <;> rcases h2 with rfl | rfl <;> rcases h3 with rfl | rfl <;>
    cases b <;> decide

/-- C5 witness at the initial window and input bit 1. -/
theorem c5_transition_total_witness :
    ((((1 : ℤ), (1 : ℤ), (1 : ℤ)).1 = 1 ∨ ((1 : ℤ), (1 : ℤ), (1 : ℤ)).1 = -1) ∧
      (((1 : ℤ), (1 : ℤ), (1 : ℤ)).2.1 = 1 ∨ ((1 : ℤ), (1 : ℤ), (1 : ℤ)).2.1 = -1) ∧
      (((1 : ℤ), (1 : ℤ), (1 : ℤ)).2.2 = 1 ∨ ((1 : ℤ), (1 : ℤ), (1 : ℤ)).2.2 = -1)) ∧
    ((∀ x ∈ (encStep ((1 : ℤ), (1 : ℤ), (1 : ℤ)) true).1, x = 1 ∨ x = -1) ∧
      ((encStep ((1 : ℤ), (1 : ℤ), (1 : ℤ)) true).2.1 = 1 ∨
        (encStep ((1 : ℤ), (1 : ℤ), (1 : ℤ)) true).2.1 = -1) ∧
      ((encStep ((1 : ℤ), (1 : ℤ), (1 : ℤ)) true).2.2.1 = 1 ∨
        (encStep ((1 : ℤ), (1 : ℤ), (1 : ℤ)) true).2.2.1 = -1) ∧
      ((encStep ((1 : ℤ), (1 : ℤ), (1 : ℤ)) true).2.2.2 = 1 ∨
        (encStep ((1 : ℤ), (1 : ℤ), (1 : ℤ)) true).2.2.2 = -1)) :=
  ⟨by decide, c5_transition_total ((1 : ℤ), (1 : ℤ), (1 : ℤ)) true (by decide)⟩

/-- C3: the empty message does not produce the empty codeword — the
conversion `int('', 16)` inside `str_to_bits` raises `ValueError`, so
`encode` fails on the empty input. -/
theorem c3_empty_input_fails :
    encode ([] : List Nat) =
      Except.error "ValueError: invalid literal for int() with base 16" := rfl

/-- C8: the encoder is deterministic — two invocations of `encode` on
the same message yield identical codewords (it draws no randomness). -/
theorem c8_encode_deterministic : ∀ cs : List Nat, encode cs = encode cs :=
  fun _ => rfl

/-! ## Channel lemmas -/

theorem transmit_getD : ∀ (s n : List ℚ) (i : Nat), i < s.length → i < n.length →
    (transmit s n).getD i 0 = s.getD i 0 + n.getD i 0 := by
  intro s
  induction s with
  | nil =>
    intro n i h _
    simp at h
  | cons a s ih =>
    intro n i h1 h2
    cases n with
    | nil => simp at h2
    | cons b n =>
      cases i with
      | zero => simp [transmit]
      | succ j =>
        simp only [transmit, List.zipWith_cons_cons, List.getD_cons_succ]
        exact ih n j (by simpa using h1) (by simpa using h2)

/-- C7 (counterexample): the effective variance is the default 1 also
when the caller explicitly specifies variance 0, because `var or
VARIANCE` treats the falsy number 0 like `None` — so "variance 1 exactly
when unspecified" fails. -/
theorem c7_variance_zero_cex :
    effVar (some 0) = 1 ∧ (some (0 : ℚ)).isSome = true := ⟨rfl, rfl⟩

/-- C7 (amended): `transmit` returns the elementwise sum of the codeword
and the noise vector, of the same length, and the effective variance is
the given value when specified and nonzero, and 1 when unspecified or
specified as 0. -/
theorem c7_transmit (signal noise : List ℚ) (h : noise.length = signal.length) :
    (transmit signal noise).length = signal.length ∧
      (∀ i, i < signal.length →
        (transmit signal noise).getD i 0 = signal.getD i 0 + noise.getD i 0) ∧
      effVar none = VARIANCE ∧ effVar (some 0) = VARIANCE ∧
      ∀ v : ℚ, v ≠ 0 → effVar (some v) = v := by
  refine ⟨?_, ?_, rfl, rfl, ?_⟩
  · simp [transmit, h]
  · intro i hi
    exact transmit_getD signal noise i hi (by omega)
  · intro v hv
    show (if v = 0 then VARIANCE else v) = v
    rw [if_neg hv]

/-- C7 witness at a concrete signal and noise vector. -/
theorem c7_transmit_witness :
    (([5, 7] : List ℚ).length = ([1, 2] : List ℚ).length) ∧
    ((transmit [1, 2] [5, 7]).length = ([1, 2] : List ℚ).length ∧
      (∀ i, i < ([1, 2] : List ℚ).length →
        (transmit [1, 2] [5, 7]).getD i 0 =
          ([1, 2] : List ℚ).getD i 0 + ([5, 7] : List ℚ).getD i 0) ∧
      effVar none = VARIANCE ∧ effVar (some 0) = VARIANCE ∧
      ∀ v : ℚ, v ≠ 0 → effVar (some v) = v) :=
  ⟨rfl, c7_transmit [1, 2] [5, 7] rfl⟩

/-! ## Big-endian value lemmas for the text conversions -/

theorem beVal_go (l : List Bool) : ∀ a : Nat,
    l.foldl (fun a b => 2 * a + (bif b then 1 else 0)) a = a * 2 ^ l.length + beVal l := by
  induction l with
  | nil =>
    intro a
    simp [beVal]
  | cons b t ih =>
    intro a
    have h1 : beVal (b :: t) = (bif b then 1 else 0) * 2 ^ t.length + beVal t := by
      unfold beVal
      simp only [List.foldl_cons]
      rw [ih]
      simp [beVal]
    rw [h1]
    simp only [List.foldl_cons]
    rw [ih]
    simp only [List.length_cons]
    ring

theorem beVal_cons (b : Bool) (t : List Bool) :
    beVal (b :: t) = (bif b then 1 else 0) * 2 ^ t.length + beVal t := by
  unfold beVal
  simp only [List.foldl_cons]
  rw [beVal_go]
  simp [beVal]

theorem beVal_append (xs ys : List Bool) :
    beVal (xs ++ ys) = beVal xs * 2 ^ ys.length + beVal ys := by
  unfold beVal
  rw [List.foldl_append]
  exact beVal_go ys _

theorem beVal_lt (l : List Bool) : beVal l < 2 ^ l.length := by
  induction l with
  | nil => simp [beVal]
  | cons b t ih =>
    rw [beVal_cons]
    have h2 : (2 : ℕ) ^ (b :: t).length = 2 ^ t.length * 2 := by
      rw [List.length_cons, pow_succ]
    rw [h2]
    cases b <;> (simp; omega)

theorem beVal_inj (xs : List Bool) : ∀ ys : List Bool, xs.length = ys.length →
    beVal xs = beVal ys → xs = ys := by
  induction xs with
  | nil =>
    intro ys hl _
    exact (List.eq_nil_of_length_eq_zero hl.symm).symm
  | cons x xs ih =>
    intro ys hl hv
    cases ys with
    | nil => simp at hl
    | cons y ys' =>
      have hxl : xs.length = ys'.length := by simpa using hl
      rw [beVal_cons, beVal_cons, hxl] at hv
      have v1 := beVal_lt xs
      have v2 := beVal_lt ys'
      rw [hxl] at v1
      have hp : 0 < 2 ^ ys'.length := pow_pos (by norm_num) _
      have hxy : x = y ∧ beVal xs = beVal ys' := by
        cases x <;> cases y <;> simp_all <;> try omega
      rw [hxy.1, ih ys' hxl hxy.2]

theorem beVal_replicate_false (m : Nat) : beVal (List.replicate m false) = 0 := by
  induction m with
  | zero => rfl
  | succ k ih =>
    rw [List.replicate_succ, beVal_cons, ih]
    simp

theorem padTo_length (w : Nat) (l : List Bool) (h : l.length ≤ w) :
    (padTo w l).length = w := by
  simp [padTo]
  omega

theorem beVal_padTo (w : Nat) (l : List Bool) : beVal (padTo w l) = beVal l := by
  unfold padTo
  rw [beVal_append, beVal_replicate_false]
  simp

theorem beVal_natBits : ∀ n : Nat, beVal (natBits n) = n := by
  intro n
  induction n using Nat.strong_induction_on with
  | _ n ih =>
    match n with
    | 0 =>
      have h0 : lebits 0 = [] := by rw [lebits]
      simp [natBits, h0, beVal]
    | m + 1 =>
      have hunf : lebits (m + 1) = decide ((m + 1) % 2 = 1) :: lebits ((m + 1) / 2) := by
        rw [lebits]
      unfold natBits
      rw [hunf, List.reverse_cons, beVal_append]
      have ihq := ih ((m + 1) / 2) (Nat.div_lt_self (Nat.succ_pos m) one_lt_two)
      unfold natBits at ihq
      rw [ihq]
      have hbit : beVal [decide ((m + 1) % 2 = 1)] = (m + 1) % 2 := by
        rcases Nat.mod_two_eq_zero_or_one (m + 1) with h | h <;> simp [beVal, h]
      rw [hbit]
      have := Nat.div_add_mod (m + 1) 2
      simp only [List.length_cons, List.length_nil, pow_one]
      omega

theorem lebits_len_le : ∀ n k : Nat, n < 2 ^ k → (lebits n).length ≤ k := by
  intro n
  induction n using Nat.strong_induction_on with
  | _ n ih =>
    match n with
    | 0 =>
      intro k _
      simp [lebits]
    | m + 1 =>
      intro k hk
      cases k with
      | zero => simp at hk
      | succ j =>
        have hunf : lebits (m + 1) = decide ((m + 1) % 2 = 1) :: lebits ((m + 1) / 2) := by
          rw [lebits]
        rw [hunf, List.length_cons]
        have hdiv : (m + 1) / 2 < 2 ^ j := by
          have h2 : (2 : ℕ) ^ (j + 1) = 2 ^ j * 2 := pow_succ 2 j
          omega
        have := ih ((m + 1) / 2) (Nat.div_lt_self (Nat.succ_pos m) one_lt_two) j hdiv
        omega

theorem natBits_len_le (n k : Nat) (h : n < 2 ^ k) : (natBits n).length ≤ k := by
  unfold natBits
  rw [List.length_reverse]
  exact lebits_len_le n k h

/-! ## Base-256 value lemmas -/

theorem bytesVal_go (l : List Nat) : ∀ a : Nat,
    l.foldl (fun a b => 256 * a + b) a = a * 256 ^ l.length + bytesVal l := by
  induction l with
  | nil =>
    intro a
    simp [bytesVal]
  | cons b t ih =>
    intro a
    have h1 : bytesVal (b :: t) = b * 256 ^ t.length + bytesVal t := by
      unfold bytesVal
      simp only [List.foldl_cons]
      rw [ih]
      simp [bytesVal]
    rw [h1]
    simp only [List.foldl_cons]
    rw [ih]
    simp only [List.length_cons]
    ring

theorem bytesVal_cons (b : Nat) (t : List Nat) :
    bytesVal (b :: t) = b * 256 ^ t.length + bytesVal t := by
  unfold bytesVal
  simp only [List.foldl_cons]
  rw [bytesVal_go]
  simp [bytesVal]

theorem bytesVal_lt (l : List Nat) (h : ∀ b ∈ l, b < 256) :
    bytesVal l < 256 ^ l.length := by
  induction l with
  | nil => simp [bytesVal]
  | cons b t ih =>
    rw [bytesVal_cons]
    have hb : b < 256 := h b (by simp)
    have ht : bytesVal t < 256 ^ t.length := ih (fun x hx => h x (by simp [hx]))
    have hstep : (256 : ℕ) ^ (b :: t).length = 256 ^ t.length * 256 := by
      rw [List.length_cons, pow_succ]
    rw [hstep]
    calc b * 256 ^ t.length + bytesVal t < b * 256 ^ t.length + 256 ^ t.length := by omega
      _ = (b + 1) * 256 ^ t.length := by ring
      _ ≤ 256 * 256 ^ t.length := Nat.mul_le_mul_right _ (by omega)
      _ = 256 ^ t.length * 256 := by ring

/-! ## The fixed-width byte expansion -/

theorem byte8_length (b : Nat) (h : b < 256) : (byte8 b).length = 8 := by
  unfold byte8
  exact padTo_length 8 _ (natBits_len_le b 8 (by norm_num at *; omega))

theorem beVal_byte8 (b : Nat) : beVal (byte8 b) = b := by
  unfold byte8
  rw [beVal_padTo, beVal_natBits]

theorem flat_byte8_length (l : List Nat) (h : ∀ b ∈ l, b < 256) :
    (l.flatMap byte8).length = 8 * l.length := by
  induction l with
  | nil => rfl
  | cons b t ih =>
    rw [List.flatMap_cons, List.length_append, byte8_length b (h b (by simp)),
      ih (fun x hx => h x (by simp [hx]))]
    simp only [List.length_cons]
    ring

theorem beVal_flat_byte8 (l : List Nat) (h : ∀ b ∈ l, b < 256) :
    beVal (l.flatMap byte8) = bytesVal l := by
  induction l with
  | nil => rfl
  | cons b t ih =>
    have ht : ∀ x ∈ t, x < 256 := fun x hx => h x (by simp [hx])
    rw [List.flatMap_cons, beVal_append, beVal_byte8, ih ht,
      flat_byte8_length t ht, bytesVal_cons]
    have hpow : (2 : ℕ) ^ (8 * t.length) = 256 ^ t.length := by
      rw [pow_mul]
      norm_num
    rw [hpow]

theorem asciiReplace_lt (c : Nat) : asciiReplace c < 256 := by
  unfold asciiReplace
  split <;> omega

/-- On a non-empty message, `str_to_bits` is exactly the concatenation
of the big-endian 8-bit expansions of the replaced ASCII bytes. -/
theorem str_to_bits_ok (cs : List Nat) (h : cs ≠ []) :
    str_to_bits cs = Except.ok ((cs.map asciiReplace).flatMap byte8) := by
  match cs, h with
  | c :: cs', _ =>
    show Except.ok _ = Except.ok _
    congr 1
    have hb : ∀ b ∈ (c :: cs').map asciiReplace, b < 256 := by
      intro b hb
      obtain ⟨a, _, rfl⟩ := List.mem_map.mp hb
      exact asciiReplace_lt a
    have hlenmap : ((c :: cs').map asciiReplace).length = (c :: cs').length :=
      List.length_map _ _
    have hvlt : bytesVal ((c :: cs').map asciiReplace) < 2 ^ (8 * (c :: cs').length) := by
      have h1 := bytesVal_lt _ hb
      have hpow : (256 : ℕ) ^ ((c :: cs').map asciiReplace).length =
          2 ^ (8 * (c :: cs').length) := by
        rw [hlenmap, pow_mul]
        norm_num
      omega
    apply beVal_inj
    · rw [padTo_length _ _ (natBits_len_le _ _ hvlt),
        flat_byte8_length _ hb, hlenmap]
    · rw [beVal_padTo, beVal_natBits, beVal_flat_byte8 _ hb]

/-- C9: for every non-empty message, `str_to_bits` returns a bit string
of length exactly 8 per character, equal to the concatenation of the
big-endian 8-bit expansions of the message's bytes under ASCII encoding
with non-ASCII characters replaced by the byte of `?`. -/
theorem c9_str_to_bits (cs : List Nat) (h : cs ≠ []) :
    ∃ bits, str_to_bits cs = Except.ok bits ∧ bits.length = 8 * cs.length ∧
      bits = (cs.map asciiReplace).flatMap byte8 := by
  refine ⟨(cs.map asciiReplace).flatMap byte8, str_to_bits_ok cs h, ?_, rfl⟩
  rw [flat_byte8_length]
  · rw [List.length_map]
  · intro b hb
    obtain ⟨a, _, rfl⟩ := List.mem_map.mp hb
    exact asciiReplace_lt a

/-- C9 witness at the one-character message `A`. -/
theorem c9_str_to_bits_witness :
    (([65] : List Nat) ≠ []) ∧
    (∃ bits, str_to_bits [65] = Except.ok bits ∧ bits.length = 8 * ([65] : List Nat).length ∧
      bits = (([65] : List Nat).map asciiReplace).flatMap byte8) :=
  ⟨by decide, c9_str_to_bits [65] (by decide)⟩

/-! ## Hexadecimal-digit lemmas for the bits-to-text conversion -/

/-- For a nonzero value the leading (most significant) hexadecimal digit
exists and is nonzero. -/
theorem hexDigits_head : ∀ v : Nat, v ≠ 0 →
    ∃ D tl, hexDigits v = D :: tl ∧ D ≠ 0 := by
  intro v
  induction v using Nat.strong_induction_on with
  | _ v ih =>
    match v with
    | 0 => intro h0; exact absurd rfl h0
    | m + 1 =>
      intro _
      have hunf : led16 (m + 1) = ((m + 1) % 16) :: led16 ((m + 1) / 16) := by
        rw [led16]
      unfold hexDigits
      rw [hunf, List.reverse_cons]
      by_cases hq : (m + 1) / 16 = 0
      · rw [hq]
        have h16 : led16 0 = [] := by rw [led16]
        rw [h16]
        have hlt : m + 1 < 16 := by omega
        refine ⟨(m + 1) % 16, [], by simp, ?_⟩
        rw [Nat.mod_eq_of_lt hlt]
        omega
      · obtain ⟨D, tl, h1, h2⟩ :=
          ih ((m + 1) / 16) (Nat.div_lt_self (Nat.succ_pos m) (by omega)) hq
        unfold hexDigits at h1
        rw [h1]
        exact ⟨D, tl ++ [(m + 1) % 16], by simp, h2⟩

/-- The bits-to-text conversion depends only on the integer value of the
bit string. -/
theorem bitsToMsg_congr (xs ys : List Bool) (h : beVal xs = beVal ys) :
    bitsToMsg xs = bitsToMsg ys := by
  unfold bitsToMsg bitsToBytes
  rw [h]

/-- A leading all-zero byte never changes the decoded text. -/
theorem bitsToMsg_drop_nul (bits : List Bool) :
    bitsToMsg (List.replicate 8 false ++ bits) = bitsToMsg bits := by
  apply bitsToMsg_congr
  rw [beVal_append, beVal_replicate_false]
  simp

/-- Unfolding of the byte-pairing on two leading digits. -/
theorem pairBytes_cons2 (h l : Nat) (rest : List Nat) :
    pairBytes (h :: l :: rest) = (16 * h + l) :: pairBytes rest := rfl

/-- The first byte produced by the bits-to-bytes conversion is never 0,
since the leading hexadecimal digit of a nonzero value is nonzero. -/
theorem bitsToBytes_head_pos (bits : List Bool) :
    ∀ x ∈ (bitsToBytes bits).take 1, 0 < x := by
  intro x hx
  unfold bitsToBytes at hx
  by_cases hv : beVal bits = 0
  · rw [hv] at hx
    have h16 : led16 0 = [] := by rw [led16]
    simp [hexDigits, h16, pairBytes] at hx
  · obtain ⟨D, tl, hD, hD0⟩ := hexDigits_head _ hv
    rw [hD] at hx
    by_cases hodd : (D :: tl).length % 2 = 1
    · rw [if_pos hodd, pairBytes_cons2] at hx
      have htake : ((16 * 0 + D) :: pairBytes tl).take 1 = [16 * 0 + D] := by simp
      rw [htake] at hx
      have hx' : x = 16 * 0 + D := by simpa using hx
      omega
    · rw [if_neg hodd] at hx
      cases tl with
      | nil => simp at hodd
      | cons t1 tr =>
        rw [pairBytes_cons2] at hx
        have htake : ((16 * D + t1) :: pairBytes tr).take 1 = [16 * D + t1] := by simp
        rw [htake] at hx
        have hx' : x = 16 * D + t1 := by simpa using hx
        omega

/-- C10: the bit-to-text conversion inside `decode` drops leading
all-zero bytes — prefixing a decoded bit string with a zero byte yields
the same text, so the conversion to text is not injective on bit
strings, and no decoded message ever begins with the NUL character. -/
theorem c10_leading_nul :
    (∀ bits : List Bool, bitsToMsg (List.replicate 8 false ++ bits) = bitsToMsg bits) ∧
    (bitsToMsg (List.replicate 8 false ++
        [false, true, false, false, false, false, false, true]) =
      bitsToMsg [false, true, false, false, false, false, false, true] ∧
      decide (List.replicate 8 false ++
          [false, true, false, false, false, false, false, true] =
        [false, true, false, false, false, false, false, true]) = false) ∧
    (∀ bits : List Bool,
      ((bitsToMsg bits).take 1).all (fun x => decide (0 < x)) = true) := by
  refine ⟨bitsToMsg_drop_nul, ⟨bitsToMsg_drop_nul _, by decide⟩, ?_⟩
  intro bits
  rw [List.all_eq_true]
  intro x hx
  simp only [decide_eq_true_eq]
  unfold bitsToMsg at hx
  rw [← List.map_take] at hx
  obtain ⟨b, hb, rfl⟩ := List.mem_map.mp hx
  have hbpos := bitsToBytes_head_pos bits b hb
  unfold byteToChar
  split
  · omega
  · omega
